import Mathlib

/-!
Verification development for the `wentrivia` trivia-bot repository.

The Python sources are shallowly embedded:
* `src/wentrivia/abc_trivia.py` — `Question`, `ForgivingQuestion`,
  `JSONLoaderMixin.load_questions`, `ForgivingCheckerMixin.check_answer`,
  `RegularLogicMixin._play`, `ForgivingTrivia`.
* `src/wentrivia/trivia.py` — legacy `Question`, `Trivia.check_answer`,
  `Trivia.play`.
* `src/wentrivia/trivia_cog.py` — `TriviaCog.start`.

Python strings are sequences of code points, embedded as `List Char`;
`str.lower` is `Char.toLower` mapped over the characters.
`difflib.SequenceMatcher.quick_ratio` (an external standard-library call)
computes `2·M / T` where `M` is the cardinality of the multiset
intersection of the two character sequences and `T` is the sum of their
lengths (`difflib._calculate_ratio`, which returns `1.0` when `T = 0`);
real-valued ratios and thresholds are modelled as `ℚ`.
Randomness is modelled by an oracle stream `g : ℕ → ℕ` of raw draws:
`random.sample` draws without replacement by repeatedly picking a position
of the remaining pool and removing it, `random.choices` draws with
replacement.  The discord I/O of a session run is modelled as the list of
`ctx.send` events the session emits, with each per-question race outcome
(first qualifying message, or timeout) supplied by an oracle list.
-/

/-- Python `str.lower`, character by character. -/
def lowerStr (s : List Char) : List Char :=
  s.map Char.toLower

/-- The multiset-intersection cardinality computed by the `avail` loop of
`SequenceMatcher.quick_ratio`: for each distinct character, the smaller of
its occurrence counts in the two sequences. -/
def quickMatches (a b : List Char) : ℕ :=
  (a.dedup.map (fun c => min (a.count c) (b.count c))).sum

/-- `SequenceMatcher(a=a, b=b).quick_ratio()`: `2·M / T` with `T` the total
length of both sequences, and `1.0` for two empty sequences. -/
def quick_ratio (a b : List Char) : ℚ :=
  if a.length + b.length = 0 then 1
  else (2 * quickMatches a b : ℚ) / (a.length + b.length)

/-- `abc_trivia.Question` (dataclass fields, before `__post_init__`). -/
structure Question where
  content : List Char := "Not set".data
  points : Int := 0
  answers : List (List Char) := []
  lowercase_answers : List (List Char) := []
deriving Repr, DecidableEq

/-- `Question.__post_init__`: when `answers` is truthy (non-empty) and
`lowercase_answers` is falsy (empty), derive the latter by lowercasing. -/
def postInitLower (answers lowercase_answers : List (List Char)) :
    List (List Char) :=
  if answers ≠ [] ∧ lowercase_answers = [] then answers.map lowerStr
  else lowercase_answers

/-- Constructing `abc_trivia.Question(content, points, answers,
lowercase_answers)`: field assignment followed by `__post_init__`. -/
def mkQuestion (content : List Char) (points : Int)
    (answers lowercase_answers : List (List Char)) : Question :=
  { content := content, points := points, answers := answers,
    lowercase_answers := postInitLower answers lowercase_answers }

/-- `abc_trivia.ForgivingQuestion`: a `Question` plus the `perfect` flag. -/
structure ForgivingQuestion extends Question where
  perfect : Bool := false
deriving Repr, DecidableEq

/-- Constructing `abc_trivia.ForgivingQuestion`: the inherited
`__post_init__` runs as for `Question`. -/
def mkForgivingQuestion (content : List Char) (points : Int)
    (answers lowercase_answers : List (List Char)) (perfect : Bool) :
    ForgivingQuestion :=
  { toQuestion := mkQuestion content points answers lowercase_answers,
    perfect := perfect }

/-- `ForgivingCheckerMixin.check_answer(message, question)`, with the
threshold `self.__ratio` made an explicit argument.  A `Message` argument
only contributes its `content` string, so a message is embedded as its
content. -/
def check_answer (message : List Char) (question : ForgivingQuestion)
    (ratio : ℚ) : Bool :=
  let answer := lowerStr message
  let correct_answers := question.lowercase_answers
  if question.perfect then
    correct_answers.contains answer
  else
    correct_answers.any (fun correct =>
      decide (quick_ratio answer correct > ratio))

/-- `ForgivingCheckerMixin.__init__`'s default `forgiveness_ratio=0.0`. -/
def forgivingCheckerDefaultRatio : ℚ := 0

/-- The threshold of a `ForgivingTrivia`: its `__init__` calls
`super().__init__(ctx=ctx)` with no `forgiveness_ratio`, so the mixin
default applies. -/
def forgivingTriviaRatio : ℚ := forgivingCheckerDefaultRatio

/-- The answer check a default-constructed `ForgivingTrivia` performs. -/
def forgivingTriviaCheck (message : List Char)
    (question : ForgivingQuestion) : Bool :=
  check_answer message question forgivingTriviaRatio

/-- `trivia.Question` — the legacy dataclass: no derived lowercase field,
`perfect` defaults to `False`. -/
structure LegacyQuestion where
  content : List Char
  points : Int
  answers : List (List Char)
  perfect : Bool := false
deriving Repr, DecidableEq

/-- Legacy `Trivia.check_answer(message, question)`: lowercases the
candidates on the fly and compares the quick ratio against the literal
`0.8`. -/
def Trivia_check_answer (message : List Char) (question : LegacyQuestion) :
    Bool :=
  let answer := lowerStr message
  let correct_answers := question.answers.map lowerStr
  if question.perfect then
    correct_answers.contains answer
  else
    correct_answers.any (fun correct =>
      decide (quick_ratio answer correct > (4 / 5 : ℚ)))

/-- The legacy question with the lowercase answers spelled out, for
comparing the two checkers. -/
def LegacyQuestion.toForgiving (q : LegacyQuestion) : ForgivingQuestion :=
  { content := q.content, points := q.points, answers := q.answers,
    lowercase_answers := q.answers.map lowerStr, perfect := q.perfect }

/-- `random.sample(population, k)`: `k` draws without replacement,
modelled by repeatedly picking a position of the remaining pool from the
oracle `g` and removing it.  The pool-exhausted branch is unreachable at
the loader's call site, where `k ≤ pool.length` always holds. -/
def sampleIdx (g : ℕ → ℕ) : List ℕ → ℕ → ℕ → List ℕ
  | _, 0, _ => []
  | pool, Nat.succ k, step =>
    if pool.length = 0 then []
    else
      let i := g step % pool.length
      pool.getD i 0 :: sampleIdx g (pool.eraseIdx i) k (step + 1)

/-- `random.choices(range(n), k=k)`: `k` independent draws with
replacement from `0, …, n-1`. -/
def choicesIdx (g : ℕ → ℕ) (n : ℕ) : ℕ → ℕ → List ℕ
  | 0, _ => []
  | Nat.succ k, step => g step % n :: choicesIdx g n k (step + 1)

/-- The `chosen_index` list of `JSONLoaderMixin.load_questions`:
`random.sample(len_range, k=number) + random.choices(len_range, k=k-number)`
with `number = min(n, k)` over `len_range = range(n)`. -/
def chosenIndices (g : ℕ → ℕ) (n k : ℕ) : List ℕ :=
  let number := min n k
  sampleIdx g (List.range n) number 0 ++ choicesIdx g n (k - number) number

/-- `JSONLoaderMixin.load_questions`: the resulting `questions_pool`, given
the parsed source collection and the requested count `k`.  The factory
application `self.factory(**questions[n])` is the construction of the n-th
record. -/
def load_questions (g : ℕ → ℕ) (questions : List ForgivingQuestion)
    (k : ℕ) : List ForgivingQuestion :=
  (chosenIndices g questions.length k).map
    (fun n => questions.getD n (mkForgivingQuestion [] 0 [] [] false))

/-- An inbound chat message: a stable author identity and a content
string. -/
structure Msg where
  author : ℕ
  content : List Char
deriving Repr, DecidableEq

/-- One `ctx.send(...)` call of a session run.  Each constructor is one
send; the f-string / `'\n'.join` formatting of the Python text is
abstracted to the structured payload it renders. -/
inductive Event
  | send (text : List Char)
  | sendQuestion (q : ForgivingQuestion)
  | sendCorrect (author : ℕ) (points : Int)
  | sendScores (scores : List (ℕ × Int))
deriving Repr, DecidableEq

/-- `self.scores[author] += points` on the `defaultdict(int)` score table,
embedded as an insertion-ordered association list: a missing key is first
created at `0` (appended at the end, as a new dict key is) and then the
points are added. -/
def addScore : List (ℕ × Int) → ℕ → Int → List (ℕ × Int)
  | [], author, points => [(author, points)]
  | (u, s) :: rest, author, points =>
    if u = author then (u, s + points) :: rest
    else (u, s) :: addScore rest author points

/-- Score-table lookup (`self.scores.get(author)`, no default): the value
at the first occurrence of the key. -/
def lookupScore : List (ℕ × Int) → ℕ → Option Int
  | [], _ => none
  | (u, s) :: rest, author =>
    if u = author then some s else lookupScore rest author

/-- `self.scores[author]` as read by the defaultdict: `0` when absent. -/
def scoreOf (scores : List (ℕ × Int)) (author : ℕ) : Int :=
  (lookupScore scores author).getD 0

/-- The score-table effect of one question of the loop: a first
qualifying message credits `question.points` to its author, a timeout
(`asyncio.TimeoutError`) leaves the table unchanged. -/
def questionStep (scores : List (ℕ × Int)) (question : ForgivingQuestion)
    (outcome : Option Msg) : List (ℕ × Int) :=
  match outcome with
  | none => scores
  | some msg => addScore scores msg.author question.points

/-- The `ctx.send` calls of one question of the loop: the question itself,
then either the success announcement or `'Nadie contestó'`. -/
def questionEvents (question : ForgivingQuestion) (outcome : Option Msg) :
    List Event :=
  Event.sendQuestion question ::
    match outcome with
    | some msg => [Event.sendCorrect msg.author question.points]
    | none => [Event.send "Nadie contestó".data]

/-- The `for question in self.questions_pool` loop of
`RegularLogicMixin._play` / `Trivia.play`: each iteration emits its sends
and updates the score table; the race outcomes are supplied by the oracle
list (`none` = timeout). -/
def runQuestions : List ForgivingQuestion → List (Option Msg) →
    List (ℕ × Int) → List Event × List (ℕ × Int)
  | [], _, scores => ([], scores)
  | question :: rest, outcomes, scores =>
    let outcome := outcomes.headD none
    let stepped := runQuestions rest outcomes.tail
      (questionStep scores question outcome)
    (questionEvents question outcome ++ stepped.1, stepped.2)

/-- Python's stable `sorted(·, key=itemgetter(1), reverse=True)` step:
insert an entry after every entry of at least its score (so earlier equal
scores stay in front), before the first strictly smaller one. -/
def insertDesc (x : ℕ × Int) : List (ℕ × Int) → List (ℕ × Int)
  | [] => [x]
  | y :: ys => if x.2 ≤ y.2 then y :: insertDesc x ys else x :: y :: ys

/-- `sorted(self.scores.items(), key=itemgetter(1), reverse=True)`:
a stable sort by score, descending, of the insertion-ordered table. -/
def sortedDesc (scores : List (ℕ × Int)) : List (ℕ × Int) :=
  scores.foldl (fun acc x => insertDesc x acc) []

/-- The final report of the game loop: the joined leaderboard lines when
anybody scored, `'Nadie acertó nada'` otherwise. -/
def finalReport (scores : List (ℕ × Int)) : Event :=
  if scores = [] then Event.send "Nadie acertó nada".data
  else Event.sendScores (sortedDesc scores)

/-- `RegularLogicMixin._play` (the `ForgivingTrivia` game loop): load the
questions first (`none` = `load_questions` raised, aborting the run with
no sends), then announce the start, run the loop from an empty score
table, and report.  Returns the sends and, on completion, the final score
table. -/
def regularPlay (loadResult : Option (List ForgivingQuestion))
    (outcomes : List (Option Msg)) :
    List Event × Option (List (ℕ × Int)) :=
  match loadResult with
  | none => ([], none)
  | some questions_pool =>
    let looped := runQuestions questions_pool outcomes []
    (Event.send "Comenzando partida!".data :: looped.1 ++
      [finalReport looped.2], some looped.2)

/-- Legacy `Trivia.play`: identical loop, but the start announcement is
sent *before* `load_questions()` is called, so a failing load leaves one
send behind.  Legacy questions are viewed through `toForgiving` for the
shared loop. -/
def legacyPlay (loadResult : Option (List LegacyQuestion))
    (outcomes : List (Option Msg)) :
    List Event × Option (List (ℕ × Int)) :=
  match loadResult with
  | none => ([Event.send "Comenzando partida!".data], none)
  | some pool =>
    let looped := runQuestions (pool.map LegacyQuestion.toForgiving)
      outcomes []
    (Event.send "Comenzando partida!".data :: looped.1 ++
      [finalReport looped.2], some looped.2)

/-- The `can_start` guard of `TriviaCog.start`: the channel is in the
allow-list and has no running game. -/
def canStart (channels : List ℕ) (games : List ℕ) (ch : ℕ) : Bool :=
  ch ∈ channels ∧ ch ∉ games

/-- `self.games[ctx.channel.id] = game`: record the session (the `games`
dict is embedded as its key list; `registerGame` is only reached when the
key is absent). -/
def registerGame (games : List ℕ) (ch : ℕ) : List ℕ :=
  ch :: games

/-- `del self.games[ctx.channel.id]`. -/
def removeGame (games : List ℕ) (ch : ℕ) : List ℕ :=
  games.erase ch

/-- How a session run ends: `await game.start()` returns normally, or
raises. -/
inductive RunOutcome
  | completed
  | raised
deriving Repr, DecidableEq

/-- `TriviaCog.start(ctx)` for a channel `ch`: if the guard fails, return
with no game created; otherwise record the game, run it, and reach the
`del` only when the run returns normally — an exception propagates past
the `del`.  Returns whether a game was created and the resulting `games`
key list. -/
def cogStart (channels : List ℕ) (games : List ℕ) (ch : ℕ)
    (outcome : RunOutcome) : Bool × List ℕ :=
  if canStart channels games ch then
    match outcome with
    | .completed => (true, removeGame (registerGame games ch) ch)
    | .raised => (true, registerGame games ch)
  else
    (false, games)

lemma sampleIdx_length (g : ℕ → ℕ) :
    ∀ (k : ℕ) (pool : List ℕ) (step : ℕ), k ≤ pool.length →
      (sampleIdx g pool k step).length = k := by
  intro k
  induction k with
  | zero => intro pool step _; rfl
  | succ k ih =>
    intro pool step h
    have hpos : ¬ pool.length = 0 := by omega
    have hlt : g step % pool.length < pool.length :=
      Nat.mod_lt _ (Nat.pos_of_ne_zero hpos)
    have herase : (pool.eraseIdx (g step % pool.length)).length =
        pool.length - 1 := by
      simp [List.length_eraseIdx, hlt]
    simp only [sampleIdx, hpos, if_false, List.length_cons]
    rw [ih _ _ (by omega)]

lemma sampleIdx_mem (g : ℕ → ℕ) :
    ∀ (k : ℕ) (pool : List ℕ) (step : ℕ) (x : ℕ),
      x ∈ sampleIdx g pool k step → x ∈ pool := by
  intro k
  induction k with
  | zero => intro pool step x hx; simp [sampleIdx] at hx
  | succ k ih =>
    intro pool step x hx
    by_cases hpos : pool.length = 0
    · simp [sampleIdx, hpos] at hx
    · have hlt : g step % pool.length < pool.length :=
        Nat.mod_lt _ (Nat.pos_of_ne_zero hpos)
      simp only [sampleIdx, hpos, if_false, List.mem_cons] at hx
      rcases hx with hx | hx
      · rw [hx, List.getD_eq_getElem _ _ hlt]
        exact List.getElem_mem hlt
      · exact List.eraseIdx_subset _ _ (ih _ _ _ hx)

lemma getD_not_mem_eraseIdx :
    ∀ (l : List ℕ) (i : ℕ), l.Nodup → i < l.length →
      l.getD i 0 ∉ l.eraseIdx i := by
  intro l
  induction l with
  | nil => intro i _ h; simp at h
  | cons a as ih =>
    intro i hnd hi
    rcases List.nodup_cons.mp hnd with ⟨hna, hnd'⟩
    cases i with
    | zero => simpa using hna
    | succ i =>
      have hi' : i < as.length := by simpa using hi
      have hmem : as.getD i 0 ∈ as := by
        rw [List.getD_eq_getElem _ _ hi']
        exact List.getElem_mem hi'
      simp only [List.getD_cons_succ, List.eraseIdx_cons_succ, List.mem_cons,
        not_or]
      exact ⟨fun heq => hna (heq ▸ hmem), ih i hnd' hi'⟩

lemma sampleIdx_nodup (g : ℕ → ℕ) :
    ∀ (k : ℕ) (pool : List ℕ) (step : ℕ), pool.Nodup →
      (sampleIdx g pool k step).Nodup := by
  intro k
  induction k with
  | zero => intro pool step _; simp [sampleIdx]
  | succ k ih =>
    intro pool step hnd
    by_cases hpos : pool.length = 0
    · simp [sampleIdx, hpos]
    · have hlt : g step % pool.length < pool.length :=
        Nat.mod_lt _ (Nat.pos_of_ne_zero hpos)
      simp only [sampleIdx, hpos, if_false, List.nodup_cons]
      refine ⟨fun hmem => ?_, ih _ _ (hnd.eraseIdx _)⟩
      exact getD_not_mem_eraseIdx pool _ hnd hlt
        (sampleIdx_mem g _ _ _ _ hmem)

lemma choicesIdx_length (g : ℕ → ℕ) (n : ℕ) :
    ∀ (k step : ℕ), (choicesIdx g n k step).length = k := by
  intro k
  induction k with
  | zero => intro step; rfl
  | succ k ih => intro step; simp [choicesIdx, ih]

lemma choicesIdx_lt (g : ℕ → ℕ) (n : ℕ) (hn : 0 < n) :
    ∀ (k step x : ℕ), x ∈ choicesIdx g n k step → x < n := by
  intro k
  induction k with
  | zero => intro step x hx; simp [choicesIdx] at hx
  | succ k ih =>
    intro step x hx
    simp only [choicesIdx, List.mem_cons] at hx
    rcases hx with hx | hx
    · rw [hx]; exact Nat.mod_lt _ hn
    · exact ih _ _ hx

lemma mem_insertDesc (x z : ℕ × Int) :
    ∀ l, z ∈ insertDesc x l ↔ z = x ∨ z ∈ l := by
  intro l
  induction l with
  | nil => simp [insertDesc]
  | cons y ys ih =>
    by_cases hc : x.2 ≤ y.2
    · simp only [insertDesc, if_pos hc, List.mem_cons, ih]
      tauto
    · simp only [insertDesc, if_neg hc, List.mem_cons]

lemma insertDesc_pairwise (x : ℕ × Int) :
    ∀ l, l.Pairwise (fun a b => b.2 ≤ a.2) →
      (insertDesc x l).Pairwise (fun a b => b.2 ≤ a.2) := by
  intro l
  induction l with
  | nil => intro _; simp [insertDesc]
  | cons y ys ih =>
    intro h
    rcases List.pairwise_cons.mp h with ⟨hy, hys⟩
    by_cases hc : x.2 ≤ y.2
    · simp only [insertDesc, if_pos hc]
      refine List.pairwise_cons.mpr ⟨fun z hz => ?_, ih hys⟩
      rcases (mem_insertDesc x z ys).mp hz with hz | hz
      · rw [hz]; exact hc
      · exact hy z hz
    · simp only [insertDesc, if_neg hc]
      refine List.pairwise_cons.mpr ⟨fun z hz => ?_, h⟩
      rcases List.mem_cons.mp hz with hz | hz
      · rw [hz]; omega
      · exact le_trans (hy z hz) (by omega)

lemma insertDesc_perm (x : ℕ × Int) :
    ∀ l, List.Perm (insertDesc x l) (x :: l) := by
  intro l
  induction l with
  | nil => simp [insertDesc]
  | cons y ys ih =>
    by_cases hc : x.2 ≤ y.2
    · simp only [insertDesc, if_pos hc]
      exact (ih.cons y).trans (List.Perm.swap x y ys)
    · simp only [insertDesc, if_neg hc]
      exact List.Perm.refl _

lemma insertDesc_filter (x : ℕ × Int) (s : Int) :
    ∀ l, l.Pairwise (fun a b => b.2 ≤ a.2) →
      (insertDesc x l).filter (fun p => p.2 == s) =
        l.filter (fun p => p.2 == s) ++ (if x.2 = s then [x] else []) := by
  intro l
  induction l with
  | nil =>
    by_cases hx : x.2 = s <;>
      simp [insertDesc, hx, List.filter_cons, beq_iff_eq]
  | cons y ys ih =>
    intro h
    rcases List.pairwise_cons.mp h with ⟨hy, hys⟩
    by_cases hc : x.2 ≤ y.2
    · simp only [insertDesc, if_pos hc, List.filter_cons, ih hys]
      cases hyb : (y.2 == s) <;> simp
    · simp only [insertDesc, if_neg hc]
      by_cases hx : x.2 = s
      · have hfil : (y :: ys).filter (fun p => p.2 == s) = [] := by
          rw [List.filter_eq_nil_iff]
          intro z hz
          have hz2 : z.2 ≤ y.2 := by
            rcases List.mem_cons.mp hz with hz | hz
            · rw [hz]
            · exact hy z hz
          simp only [beq_iff_eq]
          omega
        rw [hfil, List.filter_cons]
        simp [hx, hfil]
      · rw [List.filter_cons]
        simp only [hx, beq_iff_eq, if_neg hx, decide_eq_true_eq]
        simp [hx]

lemma sortedDesc_aux_pairwise :
    ∀ (l acc : List (ℕ × Int)), acc.Pairwise (fun a b => b.2 ≤ a.2) →
      (l.foldl (fun acc x => insertDesc x acc) acc).Pairwise
        (fun a b => b.2 ≤ a.2) := by
  intro l
  induction l with
  | nil => intro acc h; exact h
  | cons x xs ih =>
    intro acc h
    exact ih (insertDesc x acc) (insertDesc_pairwise x acc h)

lemma sortedDesc_aux_filter (s : Int) :
    ∀ (l acc : List (ℕ × Int)), acc.Pairwise (fun a b => b.2 ≤ a.2) →
      (l.foldl (fun acc x => insertDesc x acc) acc).filter
          (fun p => p.2 == s) =
        acc.filter (fun p => p.2 == s) ++ l.filter (fun p => p.2 == s) := by
  intro l
  induction l with
  | nil => intro acc _; simp
  | cons x xs ih =>
    intro acc h
    have step := ih (insertDesc x acc) (insertDesc_pairwise x acc h)
    simp only [List.foldl_cons] at step ⊢
    rw [step, insertDesc_filter x s acc h, List.filter_cons]
    by_cases hx : x.2 = s
    · simp [hx]
    · simp [hx]

lemma sortedDesc_aux_perm :
    ∀ (l acc : List (ℕ × Int)),
      List.Perm (l.foldl (fun acc x => insertDesc x acc) acc) (l ++ acc) := by
  intro l
  induction l with
  | nil => intro acc; simp
  | cons x xs ih =>
    intro acc
    simp only [List.foldl_cons]
    refine (ih (insertDesc x acc)).trans ?_
    refine (List.Perm.append_left xs (insertDesc_perm x acc)).trans ?_
    exact List.perm_middle

lemma lookupScore_addScore_self (author : ℕ) (points : Int) :
    ∀ scores, lookupScore (addScore scores author points) author =
      some (scoreOf scores author + points) := by
  intro scores
  induction scores with
  | nil => simp [addScore, lookupScore, scoreOf]
  | cons p rest ih =>
    obtain ⟨u, s⟩ := p
    by_cases hu : u = author
    · subst hu
      simp [addScore, lookupScore, scoreOf]
    · simpa [addScore, lookupScore, scoreOf, hu] using ih

lemma lookupScore_addScore_other (author other : ℕ) (points : Int)
    (h : other ≠ author) :
    ∀ scores, lookupScore (addScore scores author points) other =
      lookupScore scores other := by
  intro scores
  induction scores with
  | nil => simp [addScore, lookupScore, Ne.symm h]
  | cons p rest ih =>
    obtain ⟨u, s⟩ := p
    by_cases hu : u = author
    · subst hu
      simp [addScore, lookupScore, Ne.symm h]
    · by_cases ho : u = other
      · subst ho
        simp [addScore, lookupScore, hu]
      · simpa [addScore, lookupScore, hu, ho] using ih

lemma postInitLower_default (ans : List (List Char)) :
    postInitLower ans [] = ans.map lowerStr := by
  cases ans with
  | nil => simp [postInitLower]
  | cons a as => simp [postInitLower]

/-- C1: for every raw message `m`, question `q` and threshold `t ∈ [0,1]`,
`check_answer` returns: in perfect-match mode, true iff the lowercased
message is exactly an element of `q.lowercase_answers` (independently of
`t`); in fuzzy mode, true iff some candidate's quick ratio against the
lowercased message strictly exceeds `t`. -/
theorem check_answer_spec (m : List Char) (q : ForgivingQuestion) (t : ℚ)
    (ht0 : 0 ≤ t) (ht1 : t ≤ 1) :
    (q.perfect = true →
      ((check_answer m q t = true ↔ lowerStr m ∈ q.lowercase_answers) ∧
        ∀ s : ℚ, check_answer m q s = check_answer m q t)) ∧
    (q.perfect = false →
      (check_answer m q t = true ↔
        ∃ c ∈ q.lowercase_answers, quick_ratio (lowerStr m) c > t)) := by
  constructor
  · intro hp
    constructor
    · simp [check_answer, hp, List.contains, List.elem_iff]
    · intro s
      simp [check_answer, hp]
  · intro hp
    simp [check_answer, hp, List.any_eq_true, decide_eq_true_iff]

/-- Witness for `check_answer_spec` at a concrete perfect-match question
and threshold `0`. -/
theorem check_answer_spec_witness :
    ((mkForgivingQuestion "q".data 1 ["Paris".data] [] true).perfect = true →
      ((check_answer "PARIS".data
          (mkForgivingQuestion "q".data 1 ["Paris".data] [] true) 0 = true ↔
        lowerStr "PARIS".data ∈
          (mkForgivingQuestion "q".data 1
            ["Paris".data] [] true).lowercase_answers) ∧
        ∀ s : ℚ, check_answer "PARIS".data
            (mkForgivingQuestion "q".data 1 ["Paris".data] [] true) s =
          check_answer "PARIS".data
            (mkForgivingQuestion "q".data 1 ["Paris".data] [] true) 0)) ∧
    ((mkForgivingQuestion "q".data 1 ["Paris".data] [] true).perfect = false →
      (check_answer "PARIS".data
          (mkForgivingQuestion "q".data 1 ["Paris".data] [] true) 0 = true ↔
        ∃ c ∈ (mkForgivingQuestion "q".data 1
            ["Paris".data] [] true).lowercase_answers,
          quick_ratio (lowerStr "PARIS".data) c > 0)) :=
  check_answer_spec "PARIS".data
    (mkForgivingQuestion "q".data 1 ["Paris".data] [] true) 0
    (le_refl 0) zero_le_one

/-- C10: a question constructed with an empty accepted-answer list makes
both checkers return `false` for every message and every threshold, in
perfect-match and in fuzzy mode alike, and totally so. -/
theorem check_answer_empty_answers (c : List Char) (p : Int) (pf : Bool)
    (m : List Char) (t : ℚ) :
    check_answer m (mkForgivingQuestion c p [] [] pf) t = false ∧
    Trivia_check_answer m
      { content := c, points := p, answers := [], perfect := pf } = false := by
  constructor <;> cases pf <;> rfl

/-- C8 counterexample: the `Question` constructor accepts an explicit
`lowercase_answers` argument, and `__post_init__` keeps it untouched even
when it does not match `answers` — so a constructed `Question` can violate
the claimed invariant. -/
theorem question_lowercase_counterexample :
    (mkQuestion "q".data 0 ["A".data] ["b".data, "c".data]).lowercase_answers ≠
      (mkQuestion "q".data 0 ["A".data]
        ["b".data, "c".data]).answers.map lowerStr ∧
    (mkQuestion "q".data 0 ["A".data]
        ["b".data, "c".data]).lowercase_answers.length ≠
      (mkQuestion "q".data 0 ["A".data] ["b".data, "c".data]).answers.length := by
  constructor <;> decide

/-- C8 amended: for every `Question` (or `ForgivingQuestion`) constructed
without an explicit `lowercase_answers` argument — as the JSON loader
constructs them — `lowercase_answers` is the elementwise lowercase of
`answers`, same length, same order. -/
theorem question_lowercase_default (c : List Char) (p : Int)
    (ans : List (List Char)) :
    (mkQuestion c p ans []).lowercase_answers = ans.map lowerStr ∧
    (mkQuestion c p ans []).lowercase_answers.length = ans.length ∧
    (∀ i : ℕ, ∀ h : i < ans.length,
      (mkQuestion c p ans []).lowercase_answers.getD i [] =
        lowerStr (ans.getD i [])) ∧
    (∀ pf : Bool,
      (mkForgivingQuestion c p ans [] pf).lowercase_answers =
        ans.map lowerStr) := by
  have hpost : postInitLower ans [] = ans.map lowerStr :=
    postInitLower_default ans
  refine ⟨hpost, by simp [mkQuestion, hpost], ?_, fun pf => hpost⟩
  intro i h
  simp only [mkQuestion, hpost]
  rw [List.getD_eq_getElem _ _ (by simpa using h),
    List.getD_eq_getElem _ _ h]
  simp

lemma check_answer_singleton (m c cont : List Char) (p : Int) (t : ℚ) :
    check_answer m (mkForgivingQuestion cont p [c] [] false) t =
      decide (quick_ratio (lowerStr m) (lowerStr c) > t) := by
  simp [check_answer, mkForgivingQuestion, mkQuestion, postInitLower]

/-- C4 counterexample: the default construction path (`ForgivingTrivia`,
no threshold argument) yields the mixin default `0.0`, not `0.8`: its
checker accepts the message `"xyza"` against answer `"abcd"` (quick ratio
`1/4`), which a `0.8` comparison rejects. -/
theorem default_ratio_counterexample :
    forgivingTriviaRatio ≠ 4 / 5 ∧
    forgivingTriviaCheck "xyza".data
      (mkForgivingQuestion "q".data 1 ["abcd".data] [] false) = true ∧
    check_answer "xyza".data
      (mkForgivingQuestion "q".data 1 ["abcd".data] [] false)
      (4 / 5) = false := by
  have hm : quickMatches (lowerStr "xyza".data) (lowerStr "abcd".data) = 1 :=
    by decide
  have hla : (lowerStr "xyza".data).length = 4 := by decide
  have hlb : (lowerStr "abcd".data).length = 4 := by decide
  have hr : quick_ratio (lowerStr "xyza".data) (lowerStr "abcd".data) =
      1 / 4 := by
    simp [quick_ratio, hm, hla, hlb]
    norm_num
  refine ⟨?_, ?_, ?_⟩
  · norm_num [forgivingTriviaRatio, forgivingCheckerDefaultRatio]
  · rw [forgivingTriviaCheck, check_answer_singleton, hr]
    norm_num [forgivingTriviaRatio, forgivingCheckerDefaultRatio]
  · rw [check_answer_singleton, hr]
    norm_num

/-- C4 amended: the mixin-based default construction path fixes the fuzzy
threshold at `0.0`; the `0.8` comparison is the constant hard-coded in the
legacy `Trivia.check_answer`, which coincides with the configurable
checker run at threshold `4/5`. -/
theorem threshold_defaults :
    forgivingTriviaRatio = 0 ∧
    (∀ (m : List Char) (q : ForgivingQuestion),
      forgivingTriviaCheck m q = check_answer m q 0) ∧
    (∀ (m : List Char) (q : LegacyQuestion),
      Trivia_check_answer m q = check_answer m q.toForgiving (4 / 5)) :=
  ⟨rfl, fun _ _ => rfl, fun _ _ => rfl⟩

/-- C5 amended: in the mixin-based session (`RegularLogicMixin._play`),
`load_questions` runs before the first `ctx.send`, so a run whose load
fails emits no send at all before the failure propagates. -/
theorem regularPlay_load_failure (outcomes : List (Option Msg)) :
    regularPlay none outcomes = ([], none) := rfl

/-- C5 counterexample: the legacy `Trivia.play` sends the start
announcement *before* calling `load_questions`, so a legacy run whose
load fails has already sent one message when the failure propagates. -/
theorem legacyPlay_load_failure_sends :
    legacyPlay none [] = ([Event.send "Comenzando partida!".data], none) ∧
    (legacyPlay none []).1 ≠ [] :=
  ⟨rfl, by decide⟩

/-- C2: for every source collection of size `n ≥ 1` and requested count
`k ≥ 1`, the loader's chosen indices number exactly `k`; the first
`min(n,k)` of them are pairwise distinct (drawn without replacement); all
of them index into the source; and the returned pool has exactly `k`
questions.  Only the `k - min(n,k)` trailing indices (present exactly when
`k > n`) are drawn with replacement. -/
theorem load_questions_spec (g : ℕ → ℕ) (n k : ℕ) (hn : 1 ≤ n)
    (hk : 1 ≤ k) :
    (chosenIndices g n k).length = k ∧
    ((chosenIndices g n k).take (min n k)).Nodup ∧
    (∀ i ∈ chosenIndices g n k, i < n) ∧
    (∀ questions : List ForgivingQuestion, questions.length = n →
      (load_questions g questions k).length = k) := by
  have hmin : min n k ≤ (List.range n).length := by
    simp [List.length_range]
  have hs_len : (sampleIdx g (List.range n) (min n k) 0).length = min n k :=
    sampleIdx_length g _ _ _ hmin
  have hlen : (chosenIndices g n k).length = k := by
    simp only [chosenIndices, List.length_append, hs_len, choicesIdx_length]
    omega
  refine ⟨hlen, ?_, ?_, ?_⟩
  · have htake : (chosenIndices g n k).take (min n k) =
        sampleIdx g (List.range n) (min n k) 0 := by
      simp only [chosenIndices]
      exact List.take_left' hs_len
    rw [htake]
    exact sampleIdx_nodup g _ _ _ (List.nodup_range n)
  · intro i hi
    simp only [chosenIndices, List.mem_append] at hi
    rcases hi with hi | hi
    · simpa [List.mem_range] using sampleIdx_mem g _ _ _ _ hi
    · exact choicesIdx_lt g n (by omega) _ _ _ hi
  · intro questions hq
    simp only [load_questions, List.length_map, hq, hlen]

/-- Witness for `load_questions_spec` with a two-question source and a
request for three questions. -/
theorem load_questions_spec_witness :
    (chosenIndices (fun _ => 0) 2 3).length = 3 ∧
    ((chosenIndices (fun _ => 0) 2 3).take (min 2 3)).Nodup ∧
    (∀ i ∈ chosenIndices (fun _ => 0) 2 3, i < 2) ∧
    (∀ questions : List ForgivingQuestion, questions.length = 2 →
      (load_questions (fun _ => 0) questions 3).length = 3) :=
  load_questions_spec (fun _ => 0) 2 3 (by decide) (by decide)

/-- C6: for every non-empty final score table, the reported leaderboard is
the stable descending sort of the insertion-ordered table: scores are
pairwise non-increasing, entries of any fixed score keep their original
order (and the sort is a permutation of the table); in particular
`{A:10, B:20, C:20}` inserted in order `A, B, C` reports as `B, C, A`. -/
theorem leaderboard_sorted_stable (l : List (ℕ × Int)) (h : l ≠ []) :
    finalReport l = Event.sendScores (sortedDesc l) ∧
    (sortedDesc l).Pairwise (fun a b => b.2 ≤ a.2) ∧
    (∀ s : Int, (sortedDesc l).filter (fun p => p.2 == s) =
      l.filter (fun p => p.2 == s)) ∧
    List.Perm (sortedDesc l) l ∧
    sortedDesc [(0, 10), (1, 20), (2, 20)] = [(1, 20), (2, 20), (0, 10)] := by
  refine ⟨by simp [finalReport, h], sortedDesc_aux_pairwise l [] (by simp),
    fun s => by simpa [sortedDesc] using sortedDesc_aux_filter s l [] (by simp),
    by simpa [sortedDesc] using sortedDesc_aux_perm l [], by decide⟩

/-- Witness for `leaderboard_sorted_stable` at the score table
`{A:10, B:20, C:20}`. -/
theorem leaderboard_sorted_stable_witness :
    finalReport [(0, 10), (1, 20), (2, 20)] =
      Event.sendScores (sortedDesc [(0, 10), (1, 20), (2, 20)]) ∧
    (sortedDesc [(0, 10), (1, 20), (2, 20)]).Pairwise
      (fun a b => b.2 ≤ a.2) ∧
    (∀ s : Int,
      (sortedDesc [(0, 10), (1, 20), (2, 20)]).filter (fun p => p.2 == s) =
        [(0, 10), (1, 20), (2, 20)].filter (fun p => p.2 == s)) ∧
    List.Perm (sortedDesc [(0, 10), (1, 20), (2, 20)])
      [(0, 10), (1, 20), (2, 20)] ∧
    sortedDesc [(0, 10), (1, 20), (2, 20)] = [(1, 20), (2, 20), (0, 10)] :=
  leaderboard_sorted_stable [(0, 10), (1, 20), (2, 20)] (by decide)

/-- C7: at every question step of the game loop, a qualifying message
raises its author's entry by exactly `question.points` (reading an absent
entry as the created `0`) and leaves every other participant's entry
unchanged, while a timeout leaves the whole table unchanged. -/
theorem questionStep_spec (scores : List (ℕ × Int))
    (question : ForgivingQuestion) (msg : Msg) (other : ℕ)
    (h : other ≠ msg.author) :
    lookupScore (questionStep scores question (some msg)) msg.author =
      some (scoreOf scores msg.author + question.points) ∧
    lookupScore (questionStep scores question (some msg)) other =
      lookupScore scores other ∧
    questionStep scores question none = scores :=
  ⟨lookupScore_addScore_self msg.author question.points scores,
    lookupScore_addScore_other msg.author other question.points h scores,
    rfl⟩

/-- Witness for `questionStep_spec`: author `1` answers a five-point
question while participant `0` holds three points. -/
theorem questionStep_spec_witness :
    lookupScore (questionStep [(0, 3)]
        (mkForgivingQuestion "q".data 5 [] [] false) (some ⟨1, []⟩)) 1 =
      some (scoreOf [(0, 3)] 1 + (mkForgivingQuestion "q".data 5 [] []
        false).points) ∧
    lookupScore (questionStep [(0, 3)]
        (mkForgivingQuestion "q".data 5 [] [] false) (some ⟨1, []⟩)) 0 =
      lookupScore [(0, 3)] 0 ∧
    questionStep [(0, 3)] (mkForgivingQuestion "q".data 5 [] [] false)
      none = [(0, 3)] :=
  questionStep_spec [(0, 3)] (mkForgivingQuestion "q".data 5 [] [] false)
    ⟨1, []⟩ 0 (by decide)

/-- C3 (code bug): `TriviaCog.start` deletes the registry entry only on
the normal path — the `del self.games[...]` is skipped when
`game.start()` raises, so the channel stays registered forever.  At the
concrete failing input (the allow-listed channel, empty registry, raising
run) the channel is still a key of `games` after the failure propagates,
while the normal run does remove it. -/
theorem cogStart_raised_leaks :
    cogStart [627959873329430570] [] 627959873329430570
      RunOutcome.raised = (true, [627959873329430570]) ∧
    627959873329430570 ∈
      (cogStart [627959873329430570] [] 627959873329430570
        RunOutcome.raised).2 ∧
    cogStart [627959873329430570] [] 627959873329430570
      RunOutcome.completed = (true, []) := by
  refine ⟨?_, ?_, ?_⟩ <;> decide

/-- C9: for an allow-listed channel with no running session, a start
attempt passes the guard and records the session; a second attempt made
while the first still runs fails the guard and changes nothing; and after
the first run completes normally (removing the entry), a further start
attempt passes the guard again. -/
theorem registry_exclusive (channels games : List ℕ) (ch : ℕ)
    (hch : ch ∈ channels) (hg : ch ∉ games) :
    canStart channels games ch = true ∧
    ch ∈ registerGame games ch ∧
    canStart channels (registerGame games ch) ch = false ∧
    cogStart channels (registerGame games ch) ch RunOutcome.completed =
      (false, registerGame games ch) ∧
    removeGame (registerGame games ch) ch = games ∧
    canStart channels (removeGame (registerGame games ch) ch) ch = true := by
  have h1 : canStart channels games ch = true := by
    simp [canStart, hch, hg]
  have h3 : canStart channels (registerGame games ch) ch = false := by
    simp [canStart, registerGame]
  have h5 : removeGame (registerGame games ch) ch = games := by
    simp [removeGame, registerGame]
  refine ⟨h1, List.mem_cons_self ch games, h3, ?_, h5, by rw [h5]; exact h1⟩
  simp [cogStart, h3]

/-- Witness for `registry_exclusive` at the hard-coded allow-listed
channel and an empty registry. -/
theorem registry_exclusive_witness :
    canStart [627959873329430570] [] 627959873329430570 = true ∧
    627959873329430570 ∈ registerGame [] 627959873329430570 ∧
    canStart [627959873329430570] (registerGame [] 627959873329430570)
      627959873329430570 = false ∧
    cogStart [627959873329430570] (registerGame [] 627959873329430570)
      627959873329430570 RunOutcome.completed =
      (false, registerGame [] 627959873329430570) ∧
    removeGame (registerGame [] 627959873329430570) 627959873329430570 =
      [] ∧
    canStart [627959873329430570]
      (removeGame (registerGame [] 627959873329430570) 627959873329430570)
      627959873329430570 = true :=
  registry_exclusive [627959873329430570] [] 627959873329430570
    (by decide) (by decide)
